import Mathlib

/-!
Verification development for the OfenauswertungenMIWE repository
(`main.py` and `dashboard_app.py`).

The repository processes a log of oven status events.  Its core consists of
(1) a per-unit phase-extraction state machine producing preheat and run
intervals, (2) a 22:00-anchored 24-hour cycle-window computation with a
per-timestamp date remapping, (3) a fuzzy column-role resolver, and (4) a
display sort key for unit labels.  Every definition below is a shallow
embedding of the corresponding Python code; definitions whose name matches a
Python symbol embed that symbol.

Timestamps: the Python code works with naive `datetime`/`pandas.Timestamp`
values.  Arithmetic on naive datetimes is proleptic-Gregorian with uniform
86400-second days, so a timestamp is embedded as a calendar-day index
(an integer) together with the microsecond-of-day.  `replace(hour=..., ...)`
keeps the day and sets the microsecond-of-day; `replace(year=..., month=...,
day=...)` with a valid target date sets the day index; adding or subtracting
`pd.Timedelta(days=1)` shifts the day index by one.
-/

/-- Naive timestamp: calendar-day index plus microsecond-of-day. -/
structure TS where
  day : Int
  micro : Nat
deriving DecidableEq

def microPerHour : Nat := 3600000000

def microPerDay : Nat := 86400000000

/-- The `.hour` accessor of a timestamp. -/
def TS.hour (ts : TS) : Nat := ts.micro / microPerHour

/-- Chronological (lexicographic) order on timestamps, non-strict. -/
def tsLe (a b : TS) : Prop := a.day < b.day ∨ (a.day = b.day ∧ a.micro ≤ b.micro)

/-- Chronological (lexicographic) order on timestamps, strict. -/
def tsLt (a b : TS) : Prop := a.day < b.day ∨ (a.day = b.day ∧ a.micro < b.micro)

instance tsLeDec (a b : TS) : Decidable (tsLe a b) := by
  unfold tsLe
  exact inferInstance

instance tsLtDec (a b : TS) : Decidable (tsLt a b) := by
  unfold tsLt
  exact inferInstance

/-- Binary minimum of two timestamps, as used by `pandas` `Series.min`. -/
def tsMin (a b : TS) : TS := if tsLe a b then a else b

/-- Embeds `df["timestamp"].min()` over a non-empty column `t :: rest`. -/
def listMin (t : TS) (rest : List TS) : TS := rest.foldl tsMin t

/-- Embeds the cycle-window computation of `main.py` lines 165-180 and
`dashboard_app.py` lines 202-210: `base` is the earliest timestamp with its
time-of-day forced to 22:00:00.000000; if the earliest timestamp's hour is
below 22 the cycle starts at 22:00 of the previous calendar day, otherwise at
`base` itself; the cycle end is exactly 24 hours after the start. -/
def computeCycleWindow (t0 : TS) : TS × TS :=
  let base : TS := ⟨t0.day, 22 * microPerHour⟩
  let cs : TS := if t0.hour < 22 then ⟨base.day - 1, base.micro⟩ else base
  (cs, ⟨cs.day + 1, cs.micro⟩)

/-- Signed difference of two timestamps in microseconds. -/
def diffMicro (b a : TS) : Int :=
  (b.day - a.day) * (microPerDay : Int) + ((b.micro : Int) - (a.micro : Int))

/-- Embeds `Timestamp.normalize()`: midnight of the same calendar day. -/
def TS.normalize (ts : TS) : TS := ⟨ts.day, 0⟩

/-- Embeds `adjust_timestamp_to_cycle` (`main.py` lines 224-231,
`dashboard_app.py` lines 185-193): a timestamp whose hour is at least 22 is
projected onto the calendar date of the cycle start, any other timestamp onto
the following calendar date; the time-of-day is preserved. -/
def adjust_timestamp_to_cycle (ts : TS) (cycleStartDate : TS) : TS :=
  if 22 ≤ ts.hour then ⟨cycleStartDate.day, ts.micro⟩
  else ⟨cycleStartDate.day + 1, ts.micro⟩

theorem tsMin_le_left (a b : TS) : tsLe (tsMin a b) a := by
  unfold tsMin
  split
  · exact Or.inr ⟨rfl, Nat.le_refl _⟩
  · rename_i h
    unfold tsLe at *
    omega

theorem tsMin_le_right (a b : TS) : tsLe (tsMin a b) b := by
  unfold tsMin
  split
  · assumption
  · exact Or.inr ⟨rfl, Nat.le_refl _⟩

theorem tsMin_eq_or (a b : TS) : tsMin a b = a ∨ tsMin a b = b := by
  unfold tsMin
  split
  · exact Or.inl rfl
  · exact Or.inr rfl

theorem tsLe_trans {a b c : TS} (h1 : tsLe a b) (h2 : tsLe b c) : tsLe a c := by
  unfold tsLe at *
  omega

theorem listMin_le : ∀ (rest : List TS) (t x : TS), x ∈ t :: rest → tsLe (listMin t rest) x := by
  intro rest
  induction rest with
  | nil =>
    intro t x hx
    rcases List.mem_cons.mp hx with h | h
    · subst h
      exact Or.inr ⟨rfl, Nat.le_refl _⟩
    · cases h
  | cons r rs ih =>
    intro t x hx
    have hstep : listMin t (r :: rs) = listMin (tsMin t r) rs := rfl
    rw [hstep]
    have hmin := ih (tsMin t r) (tsMin t r) (List.mem_cons_self _ _)
    rcases List.mem_cons.mp hx with h | h
    · rw [h]
      exact tsLe_trans hmin (tsMin_le_left t r)
    · rcases List.mem_cons.mp h with h2 | h2
      · rw [h2]
        exact tsLe_trans hmin (tsMin_le_right t r)
      · exact ih (tsMin t r) x (List.mem_cons_of_mem _ h2)

theorem listMin_mem : ∀ (rest : List TS) (t : TS), listMin t rest ∈ t :: rest := by
  intro rest
  induction rest with
  | nil =>
    intro t
    exact List.mem_cons_self _ _
  | cons r rs ih =>
    intro t
    have hstep : listMin t (r :: rs) = listMin (tsMin t r) rs := rfl
    rw [hstep]
    rcases List.mem_cons.mp (ih (tsMin t r)) with h | h
    · rw [h]
      rcases tsMin_eq_or t r with he | he
      · rw [he]
        exact List.mem_cons_self _ _
      · rw [he]
        exact List.mem_cons_of_mem _ (List.mem_cons_self _ _)
    · exact List.mem_cons_of_mem _ (List.mem_cons_of_mem _ h)

/-- C3: for every non-empty dataset (earliest timestamp `listMin t rest`),
`computeCycleWindow` yields a window whose end minus start is exactly 24
hours, whose start has time-of-day 22:00:00.000; when the earliest
timestamp's hour is below 22 the start lies on the previous calendar day,
otherwise on the earliest timestamp's own calendar day.  The final conjuncts
record that `listMin` really is the dataset's earliest timestamp. -/
theorem cycle_window_spec (t : TS) (rest : List TS) :
    diffMicro (computeCycleWindow (listMin t rest)).2 (computeCycleWindow (listMin t rest)).1
      = 86400000000 ∧
    (computeCycleWindow (listMin t rest)).1.micro = 79200000000 ∧
    ((listMin t rest).hour < 22 →
      (computeCycleWindow (listMin t rest)).1.day = (listMin t rest).day - 1) ∧
    (22 ≤ (listMin t rest).hour →
      (computeCycleWindow (listMin t rest)).1.day = (listMin t rest).day) ∧
    (∀ x ∈ t :: rest, tsLe (listMin t rest) x) ∧ listMin t rest ∈ t :: rest := by
  refine ⟨?_, ?_, ?_, ?_, fun x hx => listMin_le rest t x hx, listMin_mem rest t⟩
  · unfold computeCycleWindow diffMicro microPerDay microPerHour
    dsimp only
    split <;> simp
  · unfold computeCycleWindow microPerHour
    dsimp only
    split <;> rfl
  · intro h
    unfold computeCycleWindow
    dsimp only
    rw [if_pos h]
  · intro h
    unfold computeCycleWindow
    dsimp only
    rw [if_neg (by omega)]

/-- Witness for C3 at the concrete earliest timestamp 10:00 on day 0
(hour 10 < 22): the cycle starts on the previous day and spans 24 hours. -/
theorem cycle_window_spec_witness :
    diffMicro (computeCycleWindow (listMin ⟨0, 36000000000⟩ [])).2
        (computeCycleWindow (listMin ⟨0, 36000000000⟩ [])).1 = 86400000000 ∧
    (computeCycleWindow (listMin ⟨0, 36000000000⟩ [])).1.day = (0 : Int) - 1 := by
  refine ⟨(cycle_window_spec ⟨0, 36000000000⟩ []).1, ?_⟩
  have h := (cycle_window_spec ⟨0, 36000000000⟩ []).2.2.1 (by decide)
  exact h

/-- C4: `adjust_timestamp_to_cycle` preserves the time-of-day (hour, minute,
second and sub-second fraction, i.e. the microsecond-of-day) and changes only
the calendar date, and it is idempotent for a fixed cycle start date. -/
theorem adjust_idempotent (ts d : TS) :
    adjust_timestamp_to_cycle (adjust_timestamp_to_cycle ts d) d
      = adjust_timestamp_to_cycle ts d ∧
    (adjust_timestamp_to_cycle ts d).micro = ts.micro := by
  by_cases h : 22 ≤ ts.hour
  · constructor
    · unfold adjust_timestamp_to_cycle
      rw [if_pos h]
      have h2 : (22 : Nat) ≤ TS.hour ⟨d.day, ts.micro⟩ := h
      rw [if_pos h2]
    · unfold adjust_timestamp_to_cycle
      rw [if_pos h]
  · constructor
    · unfold adjust_timestamp_to_cycle
      rw [if_neg h]
      have h2 : ¬ (22 : Nat) ≤ TS.hour ⟨d.day + 1, ts.micro⟩ := h
      rw [if_neg h2]
    · unfold adjust_timestamp_to_cycle
      rw [if_neg h]

/-!
Phase extraction.  A normalized row carries the grouping key `row_name`, the
parsed timestamp, the extracted program number (`None` or a non-empty string
of the form `P<digits>`), and the three message-classification flags
`is_loaded`, `is_started`, `is_ended` (independent booleans in the code, one
per keyword pattern).
-/

/-- Normalized event row, as consumed by the extraction loops. -/
structure Row where
  name : String
  t : TS
  prog : Option String
  loaded : Bool
  started : Bool
  ended : Bool
deriving DecidableEq

/-- Python truthiness of the `prog_num` value (`None` is falsy, a string is
truthy iff non-empty). -/
def pyTruthy : Option String → Bool
  | none => false
  | some s => !s.isEmpty

abbrev Pre := String × TS × TS

abbrev Run := String × TS × TS × Option String

/-- One iteration of the extraction loop body (`main.py` lines 139-155):
remember a program number if present, remember a `Loaded` timestamp, on
`Started` emit a preheat iff a load is pending (clearing it) and set the
pending start, on `Ended` with a pending start emit a run and clear the
pending start and program number. -/
def loopStep (name : String) (st : Option TS × Option TS × Option String) (r : Row) :
    (Option TS × Option TS × Option String) × List Pre × List Run :=
  let prog1 := if pyTruthy r.prog then r.prog else st.2.2
  let tLoad1 := if r.loaded then some r.t else st.1
  let pre : List Pre :=
    if r.started then
      match tLoad1 with
      | some tl => [(name, tl, r.t)]
      | none => []
    else []
  let tLoad2 := if r.started then none else tLoad1
  let tStart1 := if r.started then some r.t else st.2.1
  match (if r.ended then tStart1 else none) with
  | some t0 => ((tLoad2, none, none), pre, [(name, t0, r.t, prog1)])
  | none => ((tLoad2, tStart1, prog1), pre, [])

/-- The per-unit extraction loop of `main.py` (lines 134-155), written as a
direct recursion threading the loop-carried state `(t_load, t_start,
prog_num)` and concatenating the emitted intervals in loop order. -/
def mainExtractGo (name : String) (st : Option TS × Option TS × Option String) :
    List Row → List Pre × List Run
  | [] => ([], [])
  | r :: rest =>
    let s := loopStep name st r
    let srest := mainExtractGo name s.1 rest
    (s.2.1 ++ srest.1, s.2.2 ++ srest.2)

/-- Per-unit extraction with the initial state `t_load = t_start = prog_num
= None` of `main.py` line 138. -/
def mainExtract (name : String) (rows : List Row) : List Pre × List Run :=
  mainExtractGo name (none, none, none) rows

/-- Per-unit machine state named as in the specification. -/
structure MachineState where
  pending_load : Option TS
  pending_start : Option TS
  pending_program : Option String
deriving DecidableEq

/-- Modelled from the spec: the single-pass state machine of spec section 4.2
with state `{pending_load, pending_start, pending_program}`, applying per
event, in order: (1) a present program number overwrites `pending_program`;
(2) `Loaded` overwrites `pending_load`; (3) `Started` emits a `Preheat`
`(pending_load, this_timestamp)` iff `pending_load` is set (then clears it)
and unconditionally sets `pending_start` without emitting a run for an
overwritten unclosed start; (4) `Ended` with `pending_start` set emits a
`Run` `(pending_start, this_timestamp, pending_program)` and clears both;
(5) `Ended` without a pending start is a no-op. -/
def specStep (name : String) (st : MachineState) (e : Row) :
    MachineState × List Pre × List Run :=
  let st1 := if e.prog.isSome then { st with pending_program := e.prog } else st
  let st2 := if e.loaded then { st1 with pending_load := some e.t } else st1
  let x3 : List Pre × MachineState :=
    if e.started then
      match st2.pending_load with
      | some tl =>
        ([(name, tl, e.t)], { st2 with pending_load := none, pending_start := some e.t })
      | none => ([], { st2 with pending_start := some e.t })
    else ([], st2)
  let x4 : List Run × MachineState :=
    if e.ended then
      match x3.2.pending_start with
      | some t0 =>
        ([(name, t0, e.t, x3.2.pending_program)],
         { x3.2 with pending_start := none, pending_program := none })
      | none => ([], x3.2)
    else ([], x3.2)
  (x4.2, x3.1, x4.1)

/-- Modelled from the spec: folding the state machine over a unit's event
sequence, collecting emitted intervals in order. -/
def specExtractGo (name : String) (st : MachineState) : List Row → List Pre × List Run
  | [] => ([], [])
  | e :: rest =>
    let s := specStep name st e
    let srest := specExtractGo name s.1 rest
    (s.2.1 ++ srest.1, s.2.2 ++ srest.2)

/-- Modelled from the spec: the state machine started with all state empty. -/
def specExtract (name : String) (rows : List Row) : List Pre × List Run :=
  specExtractGo name ⟨none, none, none⟩ rows

theorem pyTruthy_eq_isSome (o : Option String) (h : o ≠ some "") :
    pyTruthy o = o.isSome := by
  cases o with
  | none => rfl
  | some s =>
    have hs : s ≠ "" := fun hs => h (by rw [hs])
    have he : s.isEmpty = false := by
      cases hemp : s.isEmpty
      · rfl
      · exact absurd ((String.isEmpty_iff s).mp hemp) hs
    simp [pyTruthy, he]

theorem step_agree (name : String) (tl ts : Option TS) (pn : Option String) (r : Row)
    (h : r.prog ≠ some "") :
    specStep name ⟨tl, ts, pn⟩ r
      = (⟨(loopStep name (tl, ts, pn) r).1.1, (loopStep name (tl, ts, pn) r).1.2.1,
          (loopStep name (tl, ts, pn) r).1.2.2⟩,
         (loopStep name (tl, ts, pn) r).2) := by
  rcases r with ⟨nm, t, pg, ld, st', en⟩
  have hp : pyTruthy pg = pg.isSome := pyTruthy_eq_isSome pg h
  cases ld <;> cases st' <;> cases en <;> cases tl <;> cases ts <;>
    cases hq : pg.isSome <;>
      simp [specStep, loopStep, hp, hq]

theorem extract_agree (rows : List Row) : ∀ (name : String) (tl ts : Option TS)
    (pn : Option String), (∀ r ∈ rows, r.prog ≠ some "") →
    specExtractGo name ⟨tl, ts, pn⟩ rows = mainExtractGo name (tl, ts, pn) rows := by
  induction rows with
  | nil => intros; rfl
  | cons r rest ih =>
    intro name tl ts pn h
    have hr : r.prog ≠ some "" := h r (List.mem_cons_self _ _)
    have hrest : ∀ x ∈ rest, x.prog ≠ some "" := fun x hx => h x (List.mem_cons_of_mem _ hx)
    show ((specStep name ⟨tl, ts, pn⟩ r).2.1
            ++ (specExtractGo name (specStep name ⟨tl, ts, pn⟩ r).1 rest).1,
          (specStep name ⟨tl, ts, pn⟩ r).2.2
            ++ (specExtractGo name (specStep name ⟨tl, ts, pn⟩ r).1 rest).2)
        = _
    rw [step_agree name tl ts pn r hr]
    rw [ih name _ _ _ hrest]
    rfl

/-- Scenario rows of C1: `Loaded@08:00`, `Started@08:30`, `Ended@10:00` for
unit `A`, with no program numbers. -/
def c1rows : List Row :=
  [⟨"A", ⟨0, 28800000000⟩, none, true, false, false⟩,
   ⟨"A", ⟨0, 30600000000⟩, none, false, true, false⟩,
   ⟨"A", ⟨0, 36000000000⟩, none, false, false, true⟩]

/-- C1: on every unit event sequence whose program numbers are genuine labels
(never the empty string, as guaranteed by `extract_program_number`), the
extraction loop of `main.py` behaves exactly as the specified single-pass
state machine with state `{pending_load, pending_start, pending_program}`
initialized to empty; in particular the sequence `[Loaded@08:00,
Started@08:30, Ended@10:00]` yields exactly one `Preheat(08:00, 08:30)` and
one `Run(08:30, 10:00)` with no program number. -/
theorem phase_extractor_matches_spec :
    (∀ (name : String) (rows : List Row), (∀ r ∈ rows, r.prog ≠ some "") →
      mainExtract name rows = specExtract name rows) ∧
    mainExtract "A" c1rows
      = ([("A", ⟨0, 28800000000⟩, ⟨0, 30600000000⟩)],
         [("A", ⟨0, 30600000000⟩, ⟨0, 36000000000⟩, none)]) := by
  constructor
  · intro name rows h
    exact (extract_agree rows name none none none h).symm
  · rfl

/-- Witness for C1: the equivalence applied to the concrete scenario rows. -/
theorem phase_extractor_matches_spec_witness :
    mainExtract "A" c1rows = specExtract "A" c1rows :=
  phase_extractor_matches_spec.1 "A" c1rows (by decide)

/-- Accumulator of the dashboard extraction loop: the loop-carried state
`(t_load, t_start, prog_num)` plus the two output lists being appended to. -/
structure DashAcc where
  t_load : Option TS
  t_start : Option TS
  prog_num : Option String
  preheats : List Pre
  runs : List Run
deriving DecidableEq

/-- One iteration of the extraction loop body inside `load_and_clean_csv`
(`dashboard_app.py` lines 144-159), written as a fold step appending emitted
intervals to the accumulator (the loops of the two scripts are textually the
same; the two embeddings differ only in recursion style). -/
def dashStep (name : String) (a : DashAcc) (r : Row) : DashAcc :=
  let a1 := if pyTruthy r.prog then { a with prog_num := r.prog } else a
  let a2 := if r.loaded then { a1 with t_load := some r.t } else a1
  let a3 :=
    if r.started then
      match a2.t_load with
      | some tl =>
        { a2 with preheats := a2.preheats ++ [(name, tl, r.t)], t_load := none,
                  t_start := some r.t }
      | none => { a2 with t_start := some r.t }
    else a2
  if r.ended then
    match a3.t_start with
    | some t0 =>
      { a3 with runs := a3.runs ++ [(name, t0, r.t, a3.prog_num)], t_start := none,
                prog_num := none }
    | none => a3
  else a3

/-- The dashboard per-unit extraction: fold the loop body over the unit's
rows, starting from empty state and empty output lists. -/
def dashExtract (name : String) (rows : List Row) : List Pre × List Run :=
  let a := rows.foldl (dashStep name) ⟨none, none, none, [], []⟩
  (a.preheats, a.runs)

theorem dashStep_loopStep (name : String) (a : DashAcc) (r : Row) :
    dashStep name a r =
      ⟨(loopStep name (a.t_load, a.t_start, a.prog_num) r).1.1,
       (loopStep name (a.t_load, a.t_start, a.prog_num) r).1.2.1,
       (loopStep name (a.t_load, a.t_start, a.prog_num) r).1.2.2,
       a.preheats ++ (loopStep name (a.t_load, a.t_start, a.prog_num) r).2.1,
       a.runs ++ (loopStep name (a.t_load, a.t_start, a.prog_num) r).2.2⟩ := by
  rcases a with ⟨tl, ts, pn, ps, rs⟩
  rcases r with ⟨nm, t, pg, ld, st', en⟩
  cases hq : pyTruthy pg <;> cases ld <;> cases st' <;> cases en <;>
    cases tl <;> cases ts <;> simp [dashStep, loopStep, hq]

theorem dash_fold (rows : List Row) : ∀ (name : String) (a : DashAcc),
    ((rows.foldl (dashStep name) a).preheats, (rows.foldl (dashStep name) a).runs)
      = (a.preheats ++ (mainExtractGo name (a.t_load, a.t_start, a.prog_num) rows).1,
         a.runs ++ (mainExtractGo name (a.t_load, a.t_start, a.prog_num) rows).2) := by
  induction rows with
  | nil => intro name a; simp [mainExtractGo]
  | cons r rest ih =>
    intro name a
    have hfold : (r :: rest).foldl (dashStep name) a
        = rest.foldl (dashStep name) (dashStep name a r) := rfl
    rw [hfold, ih name (dashStep name a r), dashStep_loopStep]
    simp [mainExtractGo, List.append_assoc]

theorem dash_eq_main (name : String) (rows : List Row) :
    dashExtract name rows = mainExtract name rows := by
  have h := dash_fold rows name ⟨none, none, none, [], []⟩
  simp only [List.nil_append] at h
  exact h

/-- Insertion step of a sort by a boolean comparison. -/
def insertLe {α : Type} (le : α → α → Bool) (a : α) : List α → List α
  | [] => [a]
  | b :: bs => if le a b then a :: b :: bs else b :: insertLe le a bs

/-- Sort by a boolean comparison (models the time-ascending reordering done
by `sort_values` and the sorted group-key iteration of `groupby`; the
library's sorting algorithm is embedded as a deterministic comparison sort,
shared by both embeddings below exactly as both scripts share the same
library calls). -/
def sortByLe {α : Type} (le : α → α → Bool) : List α → List α
  | [] => []
  | a :: as => insertLe le a (sortByLe le as)

def rowLeB (a b : Row) : Bool := decide (tsLe a.t b.t)

def strLeB (a b : String) : Bool := decide (a ≤ b)

/-- Sorted distinct group keys, as iterated by `df.groupby("row_name")`. -/
def groupNames (df : List Row) : List String :=
  sortByLe strLeB (df.map Row.name).dedup

/-- The whole extraction phase of `main.py` lines 134-155: iterate groups in
sorted key order, sort each group by timestamp, run the per-unit loop, and
concatenate the emitted interval lists across groups. -/
def extractAllMain (df : List Row) : List Pre × List Run :=
  (((groupNames df).map fun n =>
      (mainExtract n (sortByLe rowLeB (df.filter fun r => r.name == n))).1).flatten,
   ((groupNames df).map fun n =>
      (mainExtract n (sortByLe rowLeB (df.filter fun r => r.name == n))).2).flatten)

/-- The extraction phase inside `load_and_clean_csv` (`dashboard_app.py`
lines 139-161), built from the fold-style per-unit loop. -/
def extractAllDash (df : List Row) : List Pre × List Run :=
  (((groupNames df).map fun n =>
      (dashExtract n (sortByLe rowLeB (df.filter fun r => r.name == n))).1).flatten,
   ((groupNames df).map fun n =>
      (dashExtract n (sortByLe rowLeB (df.filter fun r => r.name == n))).2).flatten)

/-- C9: the inline phase-extraction loop of `main.py` and the extraction
loop inside `load_and_clean_csv` of `dashboard_app.py` are equivalent: on
the same normalized table (same row names, timestamps, loaded/started/ended
flags and program numbers) they produce identical preheats and runs lists. -/
theorem extraction_loops_equivalent (df : List Row) :
    extractAllMain df = extractAllDash df := by
  unfold extractAllMain extractAllDash
  simp only [dash_eq_main]

/-- C10: `adjust_timestamp_to_cycle` is not monotone: there is a pair of
timestamps `ts1 < ts2` (with a shared cycle start date) whose remapped
images are strictly reversed; in general any timestamp with hour < 22 that
precedes one with hour >= 22 is remapped strictly after it, so an extracted
interval whose true start is before 22:00 and whose true end is at or after
22:00 has its remapped start after its remapped end. -/
theorem remap_not_monotone :
    (∃ ts1 ts2 d : TS, tsLt ts1 ts2 ∧
      tsLt (adjust_timestamp_to_cycle ts2 d) (adjust_timestamp_to_cycle ts1 d)) ∧
    (∀ s e d : TS, tsLt s e → s.hour < 22 → 22 ≤ e.hour →
      tsLt (adjust_timestamp_to_cycle e d) (adjust_timestamp_to_cycle s d)) := by
  constructor
  · exact ⟨⟨0, 75600000000⟩, ⟨0, 82800000000⟩, ⟨0, 0⟩, by decide, by decide⟩
  · intro s e d hse hs he
    unfold adjust_timestamp_to_cycle
    rw [if_pos he, if_neg (by omega)]
    unfold tsLt
    left
    show d.day < d.day + 1
    omega

/-- Witness for C10: a start at 00:00 and an end at 23:00 of the same day
remap (cycle start date at day 5) to day 6 and day 5 respectively, i.e. the
remapped end precedes the remapped start. -/
theorem remap_not_monotone_witness :
    tsLt (adjust_timestamp_to_cycle ⟨0, 82800000000⟩ ⟨5, 0⟩)
      (adjust_timestamp_to_cycle ⟨0, 0⟩ ⟨5, 0⟩) :=
  remap_not_monotone.2 ⟨0, 0⟩ ⟨0, 82800000000⟩ ⟨5, 0⟩ (by decide) (by decide) (by decide)

theorem runs_endpoints (rows : List Row) : ∀ (name : String) (tl ts : Option TS)
    (pn : Option String) (x : Run), x ∈ (mainExtractGo name (tl, ts, pn) rows).2 →
    x.1 = name ∧ ∃ (j : Nat) (rj : Row), rows[j]? = some rj ∧ rj.ended = true ∧
      x.2.2.1 = rj.t ∧
      ((∃ (i : Nat) (ri : Row), i ≤ j ∧ rows[i]? = some ri ∧ ri.started = true ∧ x.2.1 = ri.t)
        ∨ ts = some x.2.1) := by
  induction rows with
  | nil =>
    intro name tl ts pn x hx
    simp [mainExtractGo] at hx
  | cons r rest ih =>
    intro name tl ts pn x hx
    have hunf : mainExtractGo name (tl, ts, pn) (r :: rest)
        = ((loopStep name (tl, ts, pn) r).2.1
             ++ (mainExtractGo name (loopStep name (tl, ts, pn) r).1 rest).1,
           (loopStep name (tl, ts, pn) r).2.2
             ++ (mainExtractGo name (loopStep name (tl, ts, pn) r).1 rest).2) := rfl
    rw [hunf] at hx
    rcases List.mem_append.mp hx with hem | hrec
    · cases hE : r.ended
      · have hz : (loopStep name (tl, ts, pn) r).2.2 = [] := by
          simp [loopStep, hE]
        rw [hz] at hem
        simp at hem
      · cases hS : r.started
        · cases hts : ts
          · have hz : (loopStep name (tl, ts, pn) r).2.2 = [] := by
              simp [loopStep, hE, hS, hts]
            rw [hz] at hem
            simp at hem
          · rename_i t0
            have hz : (loopStep name (tl, ts, pn) r).2.2
                = [(name, t0, r.t, if pyTruthy r.prog then r.prog else pn)] := by
              simp [loopStep, hE, hS, hts]
            rw [hz] at hem
            have hxeq := List.mem_singleton.mp hem
            subst hxeq
            exact ⟨rfl, 0, r, List.getElem?_cons_zero, hE, rfl, Or.inr rfl⟩
        · have hz : (loopStep name (tl, ts, pn) r).2.2
              = [(name, r.t, r.t, if pyTruthy r.prog then r.prog else pn)] := by
            simp [loopStep, hE, hS]
          rw [hz] at hem
          have hxeq := List.mem_singleton.mp hem
          subst hxeq
          exact ⟨rfl, 0, r, List.getElem?_cons_zero, hE, rfl,
            Or.inl ⟨0, r, Nat.le_refl 0, List.getElem?_cons_zero, hS, rfl⟩⟩
    · have Hrec := ih name _ _ _ x hrec
      obtain ⟨hx1, j, rj, hj, hje, hxe, hdisj⟩ := Hrec
      refine ⟨hx1, j + 1, rj, ?_, hje, hxe, ?_⟩
      · rw [List.getElem?_cons_succ]
        exact hj
      rcases hdisj with ⟨i, ri, hij, hi, his, hxs⟩ | hts2
      · refine Or.inl ⟨i + 1, ri, by omega, ?_, his, hxs⟩
        rw [List.getElem?_cons_succ]
        exact hi
      · cases hS : r.started
        · cases hE : r.ended
          · have hmid : (loopStep name (tl, ts, pn) r).1.2.1 = ts := by
              simp [loopStep, hE, hS]
            rw [hmid] at hts2
            exact Or.inr hts2
          · cases hts : ts
            · have hmid : (loopStep name (tl, ts, pn) r).1.2.1 = none := by
                simp [loopStep, hE, hS, hts]
              rw [hmid] at hts2
              cases hts2
            · have hmid : (loopStep name (tl, ts, pn) r).1.2.1 = none := by
                simp [loopStep, hE, hS, hts]
              rw [hmid] at hts2
              cases hts2
        · cases hE : r.ended
          · have hmid : (loopStep name (tl, ts, pn) r).1.2.1 = some r.t := by
              simp [loopStep, hE, hS]
            rw [hmid] at hts2
            have hxr : x.2.1 = r.t := (Option.some.inj hts2).symm
            exact Or.inl ⟨0, r, Nat.zero_le _, List.getElem?_cons_zero, hS, hxr⟩
          · have hmid : (loopStep name (tl, ts, pn) r).1.2.1 = none := by
              simp [loopStep, hE, hS]
            rw [hmid] at hts2
            cases hts2

theorem loopStep_pre (name : String) (st : Option TS × Option TS × Option String) (r : Row) :
    (loopStep name st r).2.1
      = (if r.started then
          match (if r.loaded then some r.t else st.1) with
          | some tl => [(name, tl, r.t)]
          | none => []
        else []) := by
  unfold loopStep
  cases hsc : (if r.ended = true then (if r.started = true then some r.t else st.2.1) else none) <;>
    simp [hsc]

theorem loopStep_load (name : String) (st : Option TS × Option TS × Option String) (r : Row) :
    (loopStep name st r).1.1
      = (if r.started then none else if r.loaded then some r.t else st.1) := by
  unfold loopStep
  cases hsc : (if r.ended = true then (if r.started = true then some r.t else st.2.1) else none) <;>
    simp [hsc]

theorem preheats_endpoints (rows : List Row) : ∀ (name : String) (tl ts : Option TS)
    (pn : Option String) (x : Pre), x ∈ (mainExtractGo name (tl, ts, pn) rows).1 →
    x.1 = name ∧ ∃ (j : Nat) (rj : Row), rows[j]? = some rj ∧ rj.started = true ∧
      x.2.2 = rj.t ∧
      ((∃ (i : Nat) (ri : Row), i ≤ j ∧ rows[i]? = some ri ∧ ri.loaded = true ∧ x.2.1 = ri.t)
        ∨ tl = some x.2.1) := by
  induction rows with
  | nil =>
    intro name tl ts pn x hx
    simp [mainExtractGo] at hx
  | cons r rest ih =>
    intro name tl ts pn x hx
    have hunf : mainExtractGo name (tl, ts, pn) (r :: rest)
        = ((loopStep name (tl, ts, pn) r).2.1
             ++ (mainExtractGo name (loopStep name (tl, ts, pn) r).1 rest).1,
           (loopStep name (tl, ts, pn) r).2.2
             ++ (mainExtractGo name (loopStep name (tl, ts, pn) r).1 rest).2) := rfl
    rw [hunf] at hx
    rcases List.mem_append.mp hx with hem | hrec
    · rw [loopStep_pre] at hem
      cases hS : r.started
      · rw [hS] at hem
        simp at hem
      · rw [hS] at hem
        cases hL : r.loaded
        · rw [hL] at hem
          cases htl : tl
          · rw [htl] at hem
            simp at hem
          · rename_i tv
            rw [htl] at hem
            simp only [if_true] at hem
            have hxeq : x = (name, tv, r.t) := by
              simpa using hem
            subst hxeq
            exact ⟨rfl, 0, r, List.getElem?_cons_zero, hS, rfl, Or.inr rfl⟩
        · rw [hL] at hem
          have hxeq : x = (name, r.t, r.t) := by
            simpa using hem
          subst hxeq
          exact ⟨rfl, 0, r, List.getElem?_cons_zero, hS, rfl,
            Or.inl ⟨0, r, Nat.le_refl 0, List.getElem?_cons_zero, hL, rfl⟩⟩
    · have Hrec := ih name _ _ _ x hrec
      obtain ⟨hx1, j, rj, hj, hjs, hxe, hdisj⟩ := Hrec
      refine ⟨hx1, j + 1, rj, ?_, hjs, hxe, ?_⟩
      · rw [List.getElem?_cons_succ]
        exact hj
      rcases hdisj with ⟨i, ri, hij, hi, hil, hxs⟩ | htl2
      · refine Or.inl ⟨i + 1, ri, by omega, ?_, hil, hxs⟩
        rw [List.getElem?_cons_succ]
        exact hi
      · rw [loopStep_load] at htl2
        cases hS : r.started
        · rw [hS] at htl2
          cases hL : r.loaded
          · rw [hL] at htl2
            simp only [if_neg Bool.false_ne_true] at htl2
            exact Or.inr htl2
          · rw [hL] at htl2
            simp only [if_true] at htl2
            have hxr : x.2.1 = r.t := by
              simpa using htl2.symm
            exact Or.inl ⟨0, r, Nat.zero_le _, List.getElem?_cons_zero, hL, hxr⟩
        · rw [hS] at htl2
          simp at htl2

/-- C2: every emitted `Run` interval of the per-unit extraction takes its
start from the timestamp of a `Started` row of the same unit and its end
from the timestamp of an `Ended` row of the same unit at the same or a later
position of that unit's sequence — and at a strictly later position whenever
no single row carries both the started and ended markers (as in the spec's
one-kind-per-event model); `Preheat` intervals likewise take both endpoints
from observed `Loaded`/`Started` rows of the unit.  Hence no interval is
ever emitted with a fabricated endpoint: a unit still running when the log
ends produces no half-open interval. -/
theorem run_intervals_from_events (name : String) (rows : List Row)
    (hunit : ∀ r ∈ rows, r.name = name) :
    (∀ x ∈ (mainExtract name rows).2,
      x.1 = name ∧ ∃ (i j : Nat) (ri rj : Row), i ≤ j ∧ rows[i]? = some ri ∧
        rows[j]? = some rj ∧ ri.started = true ∧ rj.ended = true ∧
        x.2.1 = ri.t ∧ x.2.2.1 = rj.t ∧ ri.name = name ∧ rj.name = name ∧
        (i = j → ri.started = true ∧ ri.ended = true)) ∧
    (∀ x ∈ (mainExtract name rows).1,
      x.1 = name ∧ ∃ (i j : Nat) (ri rj : Row), i ≤ j ∧ rows[i]? = some ri ∧
        rows[j]? = some rj ∧ ri.loaded = true ∧ rj.started = true ∧
        x.2.1 = ri.t ∧ x.2.2 = rj.t ∧ ri.name = name ∧ rj.name = name) ∧
    ((∀ r ∈ rows, ¬(r.started = true ∧ r.ended = true)) →
      ∀ x ∈ (mainExtract name rows).2,
        ∃ (i j : Nat) (ri rj : Row), i < j ∧ rows[i]? = some ri ∧
          rows[j]? = some rj ∧ ri.started = true ∧ rj.ended = true ∧
          x.2.1 = ri.t ∧ x.2.2.1 = rj.t) := by
  refine ⟨?_, ?_, ?_⟩
  · intro x hx
    obtain ⟨hx1, j, rj, hj, hje, hxe, hdisj⟩ := runs_endpoints rows name none none none x hx
    rcases hdisj with ⟨i, ri, hij, hi, his, hxs⟩ | hts
    · refine ⟨hx1, i, j, ri, rj, hij, hi, hj, his, hje, hxs, hxe,
        hunit ri (List.getElem?_mem hi), hunit rj (List.getElem?_mem hj), ?_⟩
      intro hij2
      subst hij2
      rw [hi] at hj
      have heq : ri = rj := Option.some.inj hj
      refine ⟨his, ?_⟩
      rw [heq]
      exact hje
    · cases hts
  · intro x hx
    obtain ⟨hx1, j, rj, hj, hjs, hxe, hdisj⟩ := preheats_endpoints rows name none none none x hx
    rcases hdisj with ⟨i, ri, hij, hi, hil, hxs⟩ | htl
    · exact ⟨hx1, i, j, ri, rj, hij, hi, hj, hil, hjs, hxs, hxe,
        hunit ri (List.getElem?_mem hi), hunit rj (List.getElem?_mem hj)⟩
    · cases htl
  · intro hexcl x hx
    obtain ⟨hx1, j, rj, hj, hje, hxe, hdisj⟩ := runs_endpoints rows name none none none x hx
    rcases hdisj with ⟨i, ri, hij, hi, his, hxs⟩ | hts
    · refine ⟨i, j, ri, rj, ?_, hi, hj, his, hje, hxs, hxe⟩
      rcases Nat.lt_or_ge i j with h | h
      · exact h
      · have hij2 : i = j := Nat.le_antisymm hij h
        subst hij2
        rw [hi] at hj
        have heq : ri = rj := Option.some.inj hj
        have hre : ri.ended = true := by
          rw [heq]
          exact hje
        exact absurd ⟨his, hre⟩ (hexcl ri (List.getElem?_mem hi))
    · cases hts

/-- Witness for C2: the invariant instantiated at the concrete scenario rows
and the concrete emitted run `("A", 08:30, 10:00, none)`. -/
theorem run_intervals_from_events_witness :
    (("A", (⟨0, 30600000000⟩ : TS), (⟨0, 36000000000⟩ : TS), (none : Option String)) : Run).1
        = "A" ∧
    ∃ (i j : Nat) (ri rj : Row), i ≤ j ∧ c1rows[i]? = some ri ∧ c1rows[j]? = some rj ∧
      ri.started = true ∧ rj.ended = true ∧
      (("A", (⟨0, 30600000000⟩ : TS), (⟨0, 36000000000⟩ : TS),
        (none : Option String)) : Run).2.1 = ri.t ∧
      (("A", (⟨0, 30600000000⟩ : TS), (⟨0, 36000000000⟩ : TS),
        (none : Option String)) : Run).2.2.1 = rj.t ∧
      ri.name = "A" ∧ rj.name = "A" ∧ (i = j → ri.started = true ∧ ri.ended = true) :=
  (run_intervals_from_events "A" c1rows (by decide)).1
    ("A", ⟨0, 30600000000⟩, ⟨0, 36000000000⟩, none) (by decide)

/-!
Column-role resolution (C5).  `find_col` matches case-insensitively by
substring; `dashboard_app.py` aborts with one fixed error message when any
role is unresolved, while `main.py` performs no check at this point.
-/

/-- Substring containment on character lists (Python's `in` on strings). -/
def isSub (needle hay : List Char) : Bool :=
  hay.tails.any (fun t => needle.isPrefixOf t)

/-- Python `str.lower` (ASCII case folding; exact for the key fragments used
by the scripts). -/
def lowerChars (s : List Char) : List Char := s.map Char.toLower

/-- Embeds `find_col` (`main.py` lines 40-44, `dashboard_app.py` lines
46-50): the first column whose lowercased name contains one of the
lowercased key fragments. -/
def find_col (keys : List String) (cols : List String) : Option String :=
  cols.find? (fun c => keys.any (fun k => isSub (lowerChars k.toList) (lowerChars c.toList)))

def timeKeys : List String := ["Datum", "Zeit"]

def devKeys : List String := ["Ger", "Gerät", "Ger„t"]

def msgKeys : List String := ["Meld"]

def sollKeys : List String := ["Soll"]

def istKeys : List String := ["Ist"]

/-- The role names whose column resolution fails on the given header. -/
def missingRoles (cols : List String) : List String :=
  (if (find_col timeKeys cols).isNone then ["time"] else []) ++
  (if (find_col devKeys cols).isNone then ["device"] else []) ++
  (if (find_col msgKeys cols).isNone then ["message"] else []) ++
  (if (find_col sollKeys cols).isNone then ["target_temp"] else []) ++
  (if (find_col istKeys cols).isNone then ["actual_temp"] else [])

/-- The fixed error message of `dashboard_app.py` line 60; it lists all five
roles and does not depend on which are missing. -/
def schemaErrorMessage : String :=
  "❌ Eine oder mehrere benötigte Spalten (Zeit, Gerät, Meldung, Soll, Ist) wurden nicht gefunden."

/-- Embeds the schema-resolution step of `load_and_clean_csv`
(`dashboard_app.py` lines 52-61): resolve all five roles, abort with the
fixed error message when any is unresolved (resolved column names are never
empty, so Python truthiness coincides with presence), otherwise return the
resolved column names.  `main.py` lines 46-58 perform no such check: they
rename whatever was found and proceed. -/
def load_check (cols : List String) :
    Except String (String × String × String × String × String) :=
  match find_col timeKeys cols, find_col devKeys cols, find_col msgKeys cols,
      find_col sollKeys cols, find_col istKeys cols with
  | some t, some d, some m, some so, some i => Except.ok (t, d, m, so, i)
  | _, _, _, _, _ => Except.error schemaErrorMessage

/-- C5 counterexample: a header missing only the time column and a header
missing only the message column fail with the very same fixed error, so the
failure does not name the missing role(s). -/
theorem schema_error_does_not_name_roles :
    load_check ["Ger", "Meld", "Soll", "Ist"] = Except.error schemaErrorMessage ∧
    load_check ["Datum", "Ger", "Soll", "Ist"] = Except.error schemaErrorMessage ∧
    missingRoles ["Ger", "Meld", "Soll", "Ist"] = ["time"] ∧
    missingRoles ["Datum", "Ger", "Soll", "Ist"] = ["message"] :=
  ⟨rfl, rfl, rfl, rfl⟩

/-- C5 (amended): the dashboard's schema check fails — reporting an error
and aborting the run, with no retry and no partial processing — exactly when
at least one of the five roles cannot be resolved by the fuzzy match; the
reported error is one fixed message listing all five role columns rather
than naming the specific missing role(s), and `main.py` performs no such
check at all. -/
theorem schema_check_fails_iff_role_missing (cols : List String) :
    (load_check cols = Except.error schemaErrorMessage ↔ missingRoles cols ≠ []) ∧
    (∀ res, load_check cols = Except.ok res → missingRoles cols = []) ∧
    (∀ e, load_check cols = Except.error e → e = schemaErrorMessage) := by
  cases h1 : find_col timeKeys cols <;> cases h2 : find_col devKeys cols <;>
    cases h3 : find_col msgKeys cols <;> cases h4 : find_col sollKeys cols <;>
      cases h5 : find_col istKeys cols <;>
        simp [load_check, missingRoles, h1, h2, h3, h4, h5]

/-- Witness for C5: on a header consisting of only a device column the check
fails, hence (by the amended equivalence) some role is missing. -/
theorem schema_check_fails_iff_role_missing_witness : missingRoles ["Ger"] ≠ [] :=
  (schema_check_fails_iff_role_missing ["Ger"]).1.mp rfl

/-!
Unit display ordering (C7).  `smart_sort_key` parses a row label back into
`(type, id, chamber)` and yields a Python tuple `(str, list[int], int)`
compared lexicographically; labels failing validation get the fixed sentinel
key `("zzz_invalid", [9999], 9999)`.
-/

/-- Python whitespace for the ASCII range (`str.strip`, `\s`). -/
def isPySpace (c : Char) : Bool :=
  c = ' ' || c = '\t' || c = '\n' || c = '\r' || c = '\x0b' || c = '\x0c'

/-- Python `str.strip()`. -/
def pyStrip (s : List Char) : List Char :=
  ((s.dropWhile isPySpace).reverse.dropWhile isPySpace).reverse

/-- Matcher for the tail `\s* "(" [^)]+ ")" \s* $` of the device-label
pattern, returning the parenthesized group when the whole remainder has that
shape. -/
def matchTail (s : List Char) : Option (List Char) :=
  match s.dropWhile isPySpace with
  | '(' :: rest =>
    match rest.takeWhile (fun c => c != ')'), rest.dropWhile (fun c => c != ')') with
    | [], _ => none
    | c0 :: content, ')' :: tail =>
      if tail.all isPySpace then some (c0 :: content) else none
    | _ :: _, _ => none
  | _ => none

/-- Embeds `re.match(r"^(.*?)\s*\(([^)]+)\)\s*$", base)`: the lazy leading
group makes the engine commit to the shortest prefix whose remainder matches
the parenthesized tail, so split positions are scanned left to right. -/
def findSplit (acc : List Char) : List Char → Option (List Char × List Char)
  | [] => none
  | c :: cs =>
    match matchTail (c :: cs) with
    | some g2 => some (acc.reverse, g2)
    | none => findSplit (c :: acc) cs

/-- Splitting on the literal separator `" - "` (Python `split(" - ")`). -/
def splitDash (acc : List Char) : List Char → List (List Char)
  | [] => [acc.reverse]
  | ' ' :: '-' :: ' ' :: rest => acc.reverse :: splitDash [] rest
  | c :: cs => splitDash (c :: acc) cs

/-- Numeric value of a digit run (Python `int` on a digit string). -/
def natOfDigits (ds : List Char) : Nat := ds.foldl (fun a c => 10 * a + (c.toNat - 48)) 0

/-- Maximal digit runs of a string (`re.findall(r"\d+", ...)`); the first
argument accumulates the reversed current run. -/
def digitRunsGo (cur : Option (List Char)) : List Char → List (List Char)
  | [] =>
    match cur with
    | none => []
    | some run => [run.reverse]
  | c :: cs =>
    match cur with
    | none => if c.isDigit then digitRunsGo (some [c]) cs else digitRunsGo none cs
    | some run =>
      if c.isDigit then digitRunsGo (some (c :: run)) cs
      else run.reverse :: digitRunsGo none cs

def digitRuns (s : List Char) : List (List Char) := digitRunsGo none s

/-- Embeds `re.search(r"Herd\s*(\d+)", herd)`: scan start positions left to
right for the literal `Herd`, optional whitespace and at least one digit. -/
def scanHerd : List Char → Option Nat
  | [] => none
  | c :: cs =>
    if "Herd".toList.isPrefixOf (c :: cs) then
      match ((c :: cs).drop 4).dropWhile isPySpace |>.takeWhile Char.isDigit with
      | [] => scanHerd cs
      | d :: ds => some (natOfDigits (d :: ds))
    else scanHerd cs

/-- Key type of `smart_sort_key`: the Python tuple `(str, list[int], int)`,
with the string as its code-point sequence. -/
abbrev UnitKey := List Char × List Nat × Nat

/-- The sentinel key for invalid labels. -/
def sentinelKey : UnitKey := ("zzz_invalid".toList, [9999], 9999)

/-- Parsing of the base part of a label into `(device_type, device_id)`
(`main.py` lines 195-201): on a regex match the stripped lowercased group 1
and stripped group 2, otherwise the whole lowercased base with an empty id. -/
def parseTypeId (base : List Char) : List Char × List Char :=
  match findSplit [] base with
  | some (g1, g2) => (lowerChars (pyStrip g1), pyStrip g2)
  | none => (lowerChars base, [])

/-- Embeds `smart_sort_key` (`main.py` lines 189-209, `dashboard_app.py`
lines 164-183): split off the chamber part at `" - "`, parse the base as
`type (id)`; labels whose type is empty, `"0"` or `"nan"`, or whose id is
empty, get the sentinel key; otherwise the key is the lowercased type, the
list of integers occurring in the id (or `[9999]` if none), and the chamber
number (0 if absent). -/
def smart_sort_key (row_name : String) : UnitKey :=
  let parts := splitDash [] row_name.toList
  let base := parts.headD []
  let herd := (parts.drop 1).headD []
  let dtid := parseTypeId base
  if dtid.1 = [] ∨ dtid.1 = ['0'] ∨ dtid.1 = ['n', 'a', 'n'] ∨ dtid.2 = []
  then sentinelKey
  else
    let idNumbers0 := (digitRuns dtid.2).map
      (fun run => if !run.isEmpty && run.all Char.isDigit then natOfDigits run else 0)
    let idNumbers := if idNumbers0.isEmpty then [9999] else idNumbers0
    (dtid.1, idNumbers, (scanHerd herd).getD 0)

/-- Python comparison of `(str, list[int], int)` tuples: lexicographic with
code-point string order and elementwise list order. -/
def keyLt (a b : UnitKey) : Prop :=
  a.1 < b.1 ∨ (a.1 = b.1 ∧ (a.2.1 < b.2.1 ∨ (a.2.1 = b.2.1 ∧ a.2.2 < b.2.2)))

instance keyLtDec (a b : UnitKey) : Decidable (keyLt a b) := by
  unfold keyLt
  exact inferInstance

/-- Validity of a label in the sense of C7: after parsing, the type is
non-empty and neither `"0"` nor `"nan"`, and the id is non-empty (a label
failing the `type (id)` regex gets an empty id and is therefore invalid). -/
def validLabel (row_name : String) : Bool :=
  let dtid := parseTypeId ((splitDash [] row_name.toList).headD [])
  !(decide (dtid.1 = [] ∨ dtid.1 = ['0'] ∨ dtid.1 = ['n', 'a', 'n'] ∨ dtid.2 = []))

/-- C7 counterexample: `"0 (5)"` is invalid (type `"0"`) and receives the
sentinel key, yet it sorts strictly before the valid label `"zzzz (1)"`,
because `"zzz_invalid" < "zzzz"` in code-point order — so the sentinel key
is not greater than all keys assignable to valid labels, and an invalid
label does not always sort after a valid one. -/
theorem sentinel_not_maximal :
    smart_sort_key "0 (5)" = sentinelKey ∧
    validLabel "zzzz (1)" = true ∧
    smart_sort_key "zzzz (1)" = ("zzzz".toList, [1], 0) ∧
    keyLt (smart_sort_key "0 (5)") (smart_sort_key "zzzz (1)") := by
  refine ⟨rfl, rfl, rfl, ?_⟩
  exact Or.inl (by decide)

theorem keyLt_trans {a b c : UnitKey} (h1 : keyLt a b) (h2 : keyLt b c) : keyLt a c := by
  rcases h1 with h1 | ⟨e1, h1⟩ <;> rcases h2 with h2 | ⟨e2, h2⟩
  · exact Or.inl (lt_trans h1 h2)
  · exact Or.inl (by rw [← e2]; exact h1)
  · exact Or.inl (by rw [e1]; exact h2)
  · refine Or.inr ⟨e1.trans e2, ?_⟩
    rcases h1 with h1 | ⟨f1, h1⟩ <;> rcases h2 with h2 | ⟨f2, h2⟩
    · exact Or.inl (lt_trans h1 h2)
    · exact Or.inl (by rw [← f2]; exact h1)
    · exact Or.inl (by rw [f1]; exact h2)
    · exact Or.inr ⟨f1.trans f2, lt_trans h1 h2⟩

theorem keyLt_trichotomy (a b : UnitKey) : keyLt a b ∨ a = b ∨ keyLt b a := by
  rcases lt_trichotomy a.1 b.1 with h | h | h
  · exact Or.inl (Or.inl h)
  · rcases lt_trichotomy a.2.1 b.2.1 with h' | h' | h'
    · exact Or.inl (Or.inr ⟨h, Or.inl h'⟩)
    · rcases lt_trichotomy a.2.2 b.2.2 with h'' | h'' | h''
      · exact Or.inl (Or.inr ⟨h, Or.inr ⟨h', h''⟩⟩)
      · exact Or.inr (Or.inl (Prod.ext h (Prod.ext h' h'')))
      · exact Or.inr (Or.inr (Or.inr ⟨h.symm, Or.inr ⟨h'.symm, h''⟩⟩))
    · exact Or.inr (Or.inr (Or.inr ⟨h.symm, Or.inl h'⟩))
  · exact Or.inr (Or.inr (Or.inl h))

theorem invalid_gets_sentinel (label : String) (h : validLabel label = false) :
    smart_sort_key label = sentinelKey := by
  unfold validLabel at h
  simp only [Bool.not_eq_false'] at h
  have hc := of_decide_eq_true h
  unfold smart_sort_key
  dsimp only
  split
  · rfl
  · rename_i hcond
    exact absurd hc hcond

/-- C7 (amended): the key comparison of `smart_sort_key` is a strict total
order on keys — transitive and trichotomous (on labels it is accordingly a
total preorder: distinct labels may share a key); every invalid label (parse
failure, empty/"0"/"nan" type, or empty id) receives the fixed sentinel key
`("zzz_invalid", [9999], 9999)`; and an invalid label sorts strictly after
every valid label whose lowercased type precedes `"zzz_invalid"` in
code-point order — but, as `sentinel_not_maximal` shows, not after every
valid label, since a valid type can exceed the sentinel string. -/
theorem order_units_total_and_sentinel :
    (∀ a b c : UnitKey, keyLt a b → keyLt b c → keyLt a c) ∧
    (∀ a b : UnitKey, keyLt a b ∨ a = b ∨ keyLt b a) ∧
    (∀ label : String, validLabel label = false → smart_sort_key label = sentinelKey) ∧
    (∀ label : String, (smart_sort_key label).1 < "zzz_invalid".toList →
      keyLt (smart_sort_key label) sentinelKey) :=
  ⟨fun _ _ _ => keyLt_trans, keyLt_trichotomy, invalid_gets_sentinel,
   fun _ h => Or.inl h⟩

/-- Witness for C7: the invalid label `"nan (3)"` gets the sentinel key, and
the valid label `"Ofen (2/1)"` (type `"ofen"` before `"zzz_invalid"`) sorts
strictly before the sentinel. -/
theorem order_units_total_and_sentinel_witness :
    smart_sort_key "nan (3)" = sentinelKey ∧
    keyLt (smart_sort_key "Ofen (2/1)") sentinelKey :=
  ⟨order_units_total_and_sentinel.2.2.1 "nan (3)" (by decide),
   order_units_total_and_sentinel.2.2.2 "Ofen (2/1)" (by decide)⟩

/-!
Program-number extraction (C8).  `extract_program_number` first searches for
the pattern `P\s*(\d+)` (case-insensitive), then — only on failure — for
`(?:Programm|Prog)\s+(\d+)` (case-insensitive), normalizing any match to
`P<digits>`.  The two regex searches are embedded as leftmost scans; greedy
`\s*`/`\s+` followed by `\d+` admits no backtracking alternatives, since a
digit is never whitespace.
-/

def isPChar (c : Char) : Bool := c = 'P' || c = 'p'

/-- After a matched `P`: `\s*(\d+)` — skip all whitespace, take a maximal
non-empty digit run. -/
def tryPD (cs : List Char) : Option (List Char) :=
  match (cs.dropWhile isPySpace).takeWhile Char.isDigit with
  | [] => none
  | d :: ds => some (d :: ds)

/-- Leftmost search for `P\s*(\d+)` (case-insensitive `P`). -/
def scan1 : List Char → Option (List Char)
  | [] => none
  | c :: cs =>
    if isPChar c then
      match tryPD cs with
      | some ds => some ds
      | none => scan1 cs
    else scan1 cs

/-- Case-insensitive literal prefix match, returning the remainder. -/
def matchCI : List Char → List Char → Option (List Char)
  | [], rest => some rest
  | _ :: _, [] => none
  | p :: ps, c :: cs => if c.toLower = p then matchCI ps cs else none

/-- After a matched word: `\s+(\d+)` — at least one whitespace character,
then a maximal non-empty digit run. -/
def trySD (cs : List Char) : Option (List Char) :=
  match cs.takeWhile isPySpace with
  | [] => none
  | _ :: _ =>
    match (cs.dropWhile isPySpace).takeWhile Char.isDigit with
    | [] => none
    | d :: ds => some (d :: ds)

/-- One attempted word-pattern match at a fixed position: the literal word
(case-insensitively), then `\s+(\d+)`. -/
def wordAt (pat : List Char) (cs : List Char) : Option (List Char) :=
  match matchCI pat cs with
  | some rest => trySD rest
  | none => none

/-- Leftmost search for `(?:Programm|Prog)\s+(\d+)` (case-insensitive); at
each position the longer alternative is tried first, as the regex engine
does. -/
def scan2 : List Char → Option (List Char)
  | [] => none
  | c :: cs =>
    match wordAt "programm".toList (c :: cs) with
    | some ds => some ds
    | none =>
      match wordAt "prog".toList (c :: cs) with
      | some ds => some ds
      | none => scan2 cs

/-- Embeds `extract_program_number` (`main.py` lines 120-130,
`dashboard_app.py` lines 127-135): try `P\s*(\d+)` first and, only if that
fails, `(?:Programm|Prog)\s+(\d+)`; normalize any match to `P<digits>`;
otherwise yield no program number. -/
def extract_program_number (msg : List Char) : Option (List Char) :=
  match scan1 msg with
  | some ds => some ('P' :: ds)
  | none =>
    match scan2 msg with
    | some ds => some ('P' :: ds)
    | none => none

/-- Modelled from the claim's wording of the first pattern: somewhere in the
message a letter `P` is followed, after optional whitespace, by at least one
digit. -/
def occursP (msg : List Char) : Prop :=
  ∃ a p ws ds b, msg = a ++ p :: (ws ++ ds ++ b) ∧ isPChar p = true ∧
    (∀ c ∈ ws, isPySpace c = true) ∧ ds ≠ [] ∧ (∀ c ∈ ds, Char.isDigit c = true)

/-- Modelled from the claim's wording of the second pattern: somewhere in
the message the word `Programm` or `Prog` (case-insensitive) is followed by
whitespace and at least one digit. -/
def occursWord (msg : List Char) : Prop :=
  ∃ a w ws ds b, msg = a ++ w ++ ws ++ ds ++ b ∧
    (lowerChars w = "programm".toList ∨ lowerChars w = "prog".toList) ∧
    ws ≠ [] ∧ (∀ c ∈ ws, isPySpace c = true) ∧ ds ≠ [] ∧ (∀ c ∈ ds, Char.isDigit c = true)

theorem digit_not_space {c : Char} (h : c.isDigit = true) : isPySpace c = false := by
  cases hs : isPySpace c
  · rfl
  · exfalso
    simp only [isPySpace, Bool.or_eq_true, decide_eq_true_eq] at hs
    rcases hs with ((((h1 | h1) | h1) | h1) | h1) | h1 <;> subst h1 <;>
      exact absurd h (by decide)

theorem dropWhile_all_append (p : Char → Bool) (ws x : List Char)
    (h : ∀ c ∈ ws, p c = true) : (ws ++ x).dropWhile p = x.dropWhile p := by
  induction ws with
  | nil => rfl
  | cons a t ih =>
    have ha := h a (List.mem_cons_self _ _)
    simp only [List.cons_append, List.dropWhile_cons, ha, if_true]
    exact ih (fun c hc => h c (List.mem_cons_of_mem _ hc))

theorem tryPD_some {cs ds : List Char} (h : tryPD cs = some ds) :
    ∃ ws b, cs = ws ++ ds ++ b ∧ (∀ c ∈ ws, isPySpace c = true) ∧ ds ≠ [] ∧
      (∀ c ∈ ds, Char.isDigit c = true) := by
  unfold tryPD at h
  cases hd : (cs.dropWhile isPySpace).takeWhile Char.isDigit with
  | nil =>
    rw [hd] at h
    cases h
  | cons d rest =>
    rw [hd] at h
    have hds : ds = d :: rest := (Option.some.inj h).symm
    subst hds
    refine ⟨cs.takeWhile isPySpace, (cs.dropWhile isPySpace).dropWhile Char.isDigit, ?_, ?_,
      by simp, ?_⟩
    · have e2 : (d :: rest) ++ (cs.dropWhile isPySpace).dropWhile Char.isDigit
          = cs.dropWhile isPySpace := by
        rw [← hd]
        exact List.takeWhile_append_dropWhile _ _
      rw [List.append_assoc, e2]
      exact (List.takeWhile_append_dropWhile _ _).symm
    · intro c hc
      exact List.mem_takeWhile_imp hc
    · intro c hc
      rw [← hd] at hc
      exact List.mem_takeWhile_imp hc

theorem tryPD_of_decomp {ws ds b : List Char} (hws : ∀ c ∈ ws, isPySpace c = true)
    (hds : ds ≠ []) (hdig : ∀ c ∈ ds, Char.isDigit c = true) :
    ∃ out, tryPD (ws ++ ds ++ b) = some out := by
  cases ds with
  | nil => exact absurd rfl hds
  | cons d ds' =>
    unfold tryPD
    have hdd : Char.isDigit d = true := hdig d (List.mem_cons_self _ _)
    have h1 : (ws ++ (d :: ds') ++ b).dropWhile isPySpace = d :: (ds' ++ b) := by
      rw [List.append_assoc, dropWhile_all_append isPySpace ws _ hws]
      simp only [List.cons_append, List.dropWhile_cons, digit_not_space hdd]
      simp
    rw [h1]
    simp only [List.takeWhile_cons, hdd, if_true]
    exact ⟨_, rfl⟩

theorem trySD_some {cs ds : List Char} (h : trySD cs = some ds) :
    ∃ ws b, cs = ws ++ ds ++ b ∧ ws ≠ [] ∧ (∀ c ∈ ws, isPySpace c = true) ∧ ds ≠ [] ∧
      (∀ c ∈ ds, Char.isDigit c = true) := by
  unfold trySD at h
  cases hw : cs.takeWhile isPySpace with
  | nil =>
    rw [hw] at h
    cases h
  | cons w0 wrest =>
    rw [hw] at h
    cases hd : (cs.dropWhile isPySpace).takeWhile Char.isDigit with
    | nil =>
      rw [hd] at h
      cases h
    | cons d rest =>
      rw [hd] at h
      have hds : ds = d :: rest := (Option.some.inj h).symm
      subst hds
      refine ⟨cs.takeWhile isPySpace, (cs.dropWhile isPySpace).dropWhile Char.isDigit, ?_,
        by rw [hw]; simp, ?_, by simp, ?_⟩
      · have e2 : (d :: rest) ++ (cs.dropWhile isPySpace).dropWhile Char.isDigit
            = cs.dropWhile isPySpace := by
          rw [← hd]
          exact List.takeWhile_append_dropWhile _ _
        rw [List.append_assoc, e2]
        exact (List.takeWhile_append_dropWhile _ _).symm
      · intro c hc
        exact List.mem_takeWhile_imp hc
      · intro c hc
        rw [← hd] at hc
        exact List.mem_takeWhile_imp hc

theorem trySD_of_decomp {ws ds b : List Char} (hne : ws ≠ [])
    (hws : ∀ c ∈ ws, isPySpace c = true) (hds : ds ≠ [])
    (hdig : ∀ c ∈ ds, Char.isDigit c = true) :
    ∃ out, trySD (ws ++ ds ++ b) = some out := by
  cases ws with
  | nil => exact absurd rfl hne
  | cons w0 ws' =>
    cases ds with
    | nil => exact absurd rfl hds
    | cons d ds' =>
      unfold trySD
      have hw0 : isPySpace w0 = true := hws w0 (List.mem_cons_self _ _)
      have hdd : Char.isDigit d = true := hdig d (List.mem_cons_self _ _)
      have h1 : ((w0 :: ws') ++ (d :: ds') ++ b).dropWhile isPySpace = d :: (ds' ++ b) := by
        rw [List.append_assoc, dropWhile_all_append isPySpace (w0 :: ws') _ hws]
        simp only [List.cons_append, List.dropWhile_cons, digit_not_space hdd]
        simp
      have h2 : ((w0 :: ws') ++ (d :: ds') ++ b).takeWhile isPySpace
          = w0 :: (ws' ++ (d :: ds') ++ b).takeWhile isPySpace := by
        simp only [List.cons_append, List.takeWhile_cons, hw0, if_true]
      rw [h2, h1]
      simp only [List.takeWhile_cons, hdd, if_true]
      exact ⟨_, rfl⟩

theorem matchCI_some {pat : List Char} : ∀ {cs rest : List Char},
    matchCI pat cs = some rest → ∃ w, cs = w ++ rest ∧ lowerChars w = pat := by
  induction pat with
  | nil =>
    intro cs rest h
    exact ⟨[], by simpa using Option.some.inj h, rfl⟩
  | cons p ps ih =>
    intro cs rest h
    cases cs with
    | nil => cases h
    | cons c cs' =>
      unfold matchCI at h
      by_cases hc : c.toLower = p
      · rw [if_pos hc] at h
        obtain ⟨w, hw, hl⟩ := ih h
        exact ⟨c :: w, by rw [hw]; rfl, by simp [lowerChars] at hl ⊢; exact ⟨hc, hl⟩⟩
      · rw [if_neg hc] at h
        cases h

theorem matchCI_append (w : List Char) : ∀ (rest : List Char),
    matchCI (lowerChars w) (w ++ rest) = some rest := by
  induction w with
  | nil => intro rest; rfl
  | cons c w' ih =>
    intro rest
    simp only [lowerChars, List.map_cons, List.cons_append]
    unfold matchCI
    rw [if_pos rfl]
    exact ih rest

theorem scan1_shape : ∀ {msg ds : List Char}, scan1 msg = some ds →
    ds ≠ [] ∧ (∀ c ∈ ds, Char.isDigit c = true) := by
  intro msg
  induction msg with
  | nil =>
    intro ds h
    cases h
  | cons c cs ih =>
    intro ds h
    unfold scan1 at h
    by_cases hc : isPChar c = true
    · rw [if_pos hc] at h
      cases htp : tryPD cs with
      | some ds0 =>
        rw [htp] at h
        obtain ⟨ws, b, he, hw, hne, hdig⟩ := tryPD_some htp
        have he2 : ds0 = ds := Option.some.inj h
        rw [← he2]
        exact ⟨hne, hdig⟩
      | none =>
        rw [htp] at h
        exact ih h
    · rw [if_neg hc] at h
      exact ih h

theorem scan1_some_occurs : ∀ {msg ds : List Char}, scan1 msg = some ds → occursP msg := by
  intro msg
  induction msg with
  | nil =>
    intro ds h
    cases h
  | cons c cs ih =>
    intro ds h
    unfold scan1 at h
    by_cases hc : isPChar c = true
    · rw [if_pos hc] at h
      cases htp : tryPD cs with
      | some ds0 =>
        obtain ⟨ws, b, he, hw, hne, hdig⟩ := tryPD_some htp
        exact ⟨[], c, ws, ds0, b, by rw [he]; rfl, hc, hw, hne, hdig⟩
      | none =>
        rw [htp] at h
        obtain ⟨a, p, ws, ds', b, he, hp, hw, hne, hdig⟩ := ih h
        exact ⟨c :: a, p, ws, ds', b, by rw [he]; rfl, hp, hw, hne, hdig⟩
    · rw [if_neg hc] at h
      obtain ⟨a, p, ws, ds', b, he, hp, hw, hne, hdig⟩ := ih h
      exact ⟨c :: a, p, ws, ds', b, by rw [he]; rfl, hp, hw, hne, hdig⟩

theorem occursP_scan1 : ∀ {msg : List Char}, occursP msg → ∃ ds, scan1 msg = some ds := by
  intro msg
  induction msg with
  | nil =>
    intro h
    obtain ⟨a, p, ws, ds, b, he, _, _, _, _⟩ := h
    cases a <;> simp at he
  | cons c cs ih =>
    intro h
    obtain ⟨a, p, ws, ds, b, he, hp, hw, hne, hdig⟩ := h
    cases a with
    | nil =>
      simp only [List.nil_append] at he
      injection he with hc hcs
      unfold scan1
      rw [if_pos (by rw [hc]; exact hp)]
      obtain ⟨out, hout⟩ := tryPD_of_decomp hw hne hdig
      rw [hcs, hout]
      exact ⟨out, rfl⟩
    | cons a0 a' =>
      injection he with hc hcs
      have hoc : occursP cs := ⟨a', p, ws, ds, b, hcs, hp, hw, hne, hdig⟩
      obtain ⟨ds0, h0⟩ := ih hoc
      unfold scan1
      by_cases hpc : isPChar c = true
      · rw [if_pos hpc]
        cases htp : tryPD cs with
        | some dd => exact ⟨dd, rfl⟩
        | none => exact ⟨ds0, h0⟩
      · rw [if_neg hpc]
        exact ⟨ds0, h0⟩

theorem wordAt_some {pat cs ds : List Char} (h : wordAt pat cs = some ds) :
    ∃ w ws b, cs = w ++ (ws ++ ds ++ b) ∧ lowerChars w = pat ∧ ws ≠ [] ∧
      (∀ c ∈ ws, isPySpace c = true) ∧ ds ≠ [] ∧ (∀ c ∈ ds, Char.isDigit c = true) := by
  unfold wordAt at h
  cases hm : matchCI pat cs with
  | none =>
    rw [hm] at h
    cases h
  | some rest =>
    rw [hm] at h
    obtain ⟨w, hcs, hl⟩ := matchCI_some hm
    obtain ⟨ws, b, hrest, hwne, hw, hne, hdig⟩ := trySD_some h
    exact ⟨w, ws, b, by rw [hcs, hrest], hl, hwne, hw, hne, hdig⟩

theorem wordAt_of_decomp {w ws ds b pat : List Char} (hl : lowerChars w = pat)
    (hwne : ws ≠ []) (hw : ∀ c ∈ ws, isPySpace c = true) (hne : ds ≠ [])
    (hdig : ∀ c ∈ ds, Char.isDigit c = true) :
    ∃ out, wordAt pat (w ++ (ws ++ ds ++ b)) = some out := by
  unfold wordAt
  rw [← hl, matchCI_append w (ws ++ ds ++ b)]
  exact trySD_of_decomp hwne hw hne hdig

theorem scan2_shape : ∀ {msg ds : List Char}, scan2 msg = some ds →
    ds ≠ [] ∧ (∀ c ∈ ds, Char.isDigit c = true) := by
  intro msg
  induction msg with
  | nil =>
    intro ds h
    cases h
  | cons c cs ih =>
    intro ds h
    unfold scan2 at h
    cases hm1 : wordAt "programm".toList (c :: cs) with
    | some d1 =>
      rw [hm1] at h
      obtain ⟨w, ws, b, he, hl, hwne, hw, hne, hdig⟩ := wordAt_some hm1
      have he2 : d1 = ds := Option.some.inj h
      rw [← he2]
      exact ⟨hne, hdig⟩
    | none =>
      rw [hm1] at h
      cases hm2 : wordAt "prog".toList (c :: cs) with
      | some d2 =>
        rw [hm2] at h
        obtain ⟨w, ws, b, he, hl, hwne, hw, hne, hdig⟩ := wordAt_some hm2
        have he2 : d2 = ds := Option.some.inj h
        rw [← he2]
        exact ⟨hne, hdig⟩
      | none =>
        rw [hm2] at h
        exact ih h

theorem scan2_some_occurs : ∀ {msg ds : List Char}, scan2 msg = some ds →
    occursWord msg := by
  intro msg
  induction msg with
  | nil =>
    intro ds h
    cases h
  | cons c cs ih =>
    intro ds h
    unfold scan2 at h
    cases hm1 : wordAt "programm".toList (c :: cs) with
    | some d1 =>
      obtain ⟨w, ws, b, he, hl, hwne, hw, hne, hdig⟩ := wordAt_some hm1
      exact ⟨[], w, ws, d1, b, by rw [he]; simp [List.append_assoc], Or.inl hl, hwne, hw,
        hne, hdig⟩
    | none =>
      rw [hm1] at h
      cases hm2 : wordAt "prog".toList (c :: cs) with
      | some d2 =>
        obtain ⟨w, ws, b, he, hl, hwne, hw, hne, hdig⟩ := wordAt_some hm2
        exact ⟨[], w, ws, d2, b, by rw [he]; simp [List.append_assoc], Or.inr hl, hwne, hw,
          hne, hdig⟩
      | none =>
        rw [hm2] at h
        obtain ⟨a, w, ws, ds2, b, he, hl, hwne, hw, hne, hdig⟩ := ih h
        exact ⟨c :: a, w, ws, ds2, b, by rw [he]; rfl, hl, hwne, hw, hne, hdig⟩

theorem occursWord_scan2 : ∀ {msg : List Char}, occursWord msg →
    ∃ ds, scan2 msg = some ds := by
  intro msg
  induction msg with
  | nil =>
    intro h
    obtain ⟨a, w, ws, ds, b, he, hl, hwne, hw, hne, hdig⟩ := h
    have : a ++ w ++ ws ++ ds ++ b ≠ [] := by
      cases ds with
      | nil => exact absurd rfl hne
      | cons d ds' => simp
    exact absurd he.symm this
  | cons c cs ih =>
    intro h
    obtain ⟨a, w, ws, ds, b, he, hl, hwne, hw, hne, hdig⟩ := h
    cases a with
    | nil =>
      simp only [List.nil_append] at he
      have he2 : c :: cs = w ++ (ws ++ ds ++ b) := by
        rw [he]
        simp [List.append_assoc]
      unfold scan2
      rcases hl with hl | hl
      · obtain ⟨out, hout⟩ := wordAt_of_decomp (b := b) hl hwne hw hne hdig
        rw [← he2] at hout
        rw [hout]
        exact ⟨out, rfl⟩
      · cases hm1 : wordAt "programm".toList (c :: cs) with
        | some d1 => exact ⟨d1, rfl⟩
        | none =>
          obtain ⟨out, hout⟩ := wordAt_of_decomp (b := b) hl hwne hw hne hdig
          rw [← he2] at hout
          rw [hout]
          exact ⟨out, rfl⟩
    | cons a0 a' =>
      injection he with hc hcs
      have hoc : occursWord cs := ⟨a', w, ws, ds, b, hcs, hl, hwne, hw, hne, hdig⟩
      obtain ⟨ds0, h0⟩ := ih hoc
      unfold scan2
      cases hm1 : wordAt "programm".toList (c :: cs) with
      | some d1 => exact ⟨d1, rfl⟩
      | none =>
        cases hm2 : wordAt "prog".toList (c :: cs) with
        | some d2 => exact ⟨d2, rfl⟩
        | none => exact ⟨ds0, h0⟩

/-- C8: for every message, program-number extraction first tries the pattern
`P` (case-insensitive) followed — after the pattern's optional whitespace —
by digits and, only if that search fails, the pattern of the word
`Programm`/`Prog` followed by whitespace and digits; any match is normalized
to the form `P<digits>` (a nonempty digit string prefixed with `P`), and a
message matching neither pattern yields no program number. -/
theorem program_number_extraction_spec (msg : List Char) :
    (extract_program_number msg = none ↔ ¬occursP msg ∧ ¬occursWord msg) ∧
    (∀ ds, scan1 msg = some ds → extract_program_number msg = some ('P' :: ds)) ∧
    (scan1 msg = none → ∀ ds, scan2 msg = some ds →
      extract_program_number msg = some ('P' :: ds)) ∧
    (occursP msg → ∃ ds, extract_program_number msg = some ('P' :: ds)) ∧
    (∀ r, extract_program_number msg = some r →
      ∃ ds, r = 'P' :: ds ∧ ds ≠ [] ∧ (∀ c ∈ ds, Char.isDigit c = true)) := by
  refine ⟨⟨?_, ?_⟩, ?_, ?_, ?_, ?_⟩
  · intro h
    unfold extract_program_number at h
    cases h1 : scan1 msg with
    | some ds =>
      rw [h1] at h
      cases h
    | none =>
      rw [h1] at h
      cases h2 : scan2 msg with
      | some ds =>
        rw [h2] at h
        cases h
      | none =>
        constructor
        · intro hocc
          obtain ⟨ds, hds⟩ := occursP_scan1 hocc
          rw [hds] at h1
          cases h1
        · intro hocc
          obtain ⟨ds, hds⟩ := occursWord_scan2 hocc
          rw [hds] at h2
          cases h2
  · intro hn
    unfold extract_program_number
    cases h1 : scan1 msg with
    | some ds => exact absurd (scan1_some_occurs h1) hn.1
    | none =>
      cases h2 : scan2 msg with
      | some ds => exact absurd (scan2_some_occurs h2) hn.2
      | none => rfl
  · intro ds h1
    unfold extract_program_number
    rw [h1]
  · intro h1 ds h2
    unfold extract_program_number
    rw [h1, h2]
  · intro hocc
    obtain ⟨ds, hds⟩ := occursP_scan1 hocc
    refine ⟨ds, ?_⟩
    unfold extract_program_number
    rw [hds]
  · intro r h
    unfold extract_program_number at h
    cases h1 : scan1 msg with
    | some ds =>
      rw [h1] at h
      obtain ⟨hne, hdig⟩ := scan1_shape h1
      exact ⟨ds, (Option.some.inj h).symm, hne, hdig⟩
    | none =>
      rw [h1] at h
      cases h2 : scan2 msg with
      | some ds =>
        rw [h2] at h
        obtain ⟨hne, hdig⟩ := scan2_shape h2
        exact ⟨ds, (Option.some.inj h).symm, hne, hdig⟩
      | none =>
        rw [h2] at h
        cases h

/-- Witness for C8: on `"P3 Programm 7"` the first pattern wins and the
result is `P3`; on `"Programm 7"` the first pattern fails and the word
pattern yields `P7`. -/
theorem program_number_extraction_spec_witness :
    extract_program_number ("P3 Programm 7".toList) = some ('P' :: ['3']) ∧
    extract_program_number ("Programm 7".toList) = some ('P' :: ['7']) :=
  ⟨(program_number_extraction_spec ("P3 Programm 7".toList)).2.1 ['3'] rfl,
   (program_number_extraction_spec ("Programm 7".toList)).2.2.1 rfl ['7'] rfl⟩
